import Mathlib

/-!
Shallow embedding of two source units of the onnx-mlir repository: the ONNX
frontend importer (src/builder/frontend_dialect_transformer.cpp) and the
OMTensor runtime (OMTensor.inc). Strings are modelled as lists of
characters, std::map as an association list with emplace semantics, machine
integers as Int/Nat, and the numeric element types of the tensor comparison
as rationals.
-/

/-- Embeds replaceAll (frontend_dialect_transformer.cpp lines 45-55) at the
single-character patterns the source uses; std::replace of one character by
one character (lines 58-59) is the special case of a one-character
replacement list. The C++ loop resumes searching after the text it just
inserted, so the replacement text is never rescanned; this recursion only
recurses on the remainder of the input, which matches that behavior. -/
def replaceAll (c : Char) (repl : List Char) : List Char → List Char
  | [] => []
  | x :: xs => if x = c then repl ++ replaceAll c repl xs else x :: replaceAll c repl xs

/-- Replacement text for a colon, the character list of the literal written
in the source as an underscore, the word colon, and an underscore. -/
def colonRepl : List Char := ['_', 'c', 'o', 'l', 'o', 'n', '_']

/-- Embeds the final step of legalize_name (lines 62-64): if the name is
nonempty and starts with a digit, the character n is prepended. -/
def prependN : List Char → List Char
  | [] => []
  | c :: cs => if c.isDigit then 'n' :: c :: cs else c :: cs

/-- Embeds legalize_name (frontend_dialect_transformer.cpp lines 57-66):
every slash and dash becomes an underscore, every colon becomes the literal
colon word surrounded by underscores, and a leading digit gets n prepended. -/
def legalize_name (name : List Char) : List Char :=
  prependN (replaceAll ':' colonRepl (replaceAll '-' ['_'] (replaceAll '/' ['_'] name)))

/-- Internal IR values (the mlir Value pointers bound in the symbol table)
are modelled as opaque identifiers. -/
abbrev Value := Nat

/-- Association-list model of the std::map field onnx_name2onnf_tensor of
OnnxOnnfSymbolMapping (line 95). The source only uses lookup (at, count)
and emplace on this map, and for those operations an association list with
insert-if-absent has the same observable behavior as the ordered map. -/
abbrev SymTab := List (List Char × Value)

/-- Lookup of a key in the association-list model of the map. -/
def tblLookup : SymTab → List Char → Option Value
  | [], _ => none
  | (k, v) :: rest, name => if k = name then some v else tblLookup rest name

/-- Embeds OnnxOnnfSymbolMapping::GetTensorByOnnxName (lines 74-76): the
argument is legalized and then looked up with map::at; at throws on a
missing key, which is modelled by none. -/
def GetTensorByOnnxName (m : SymTab) (name : List Char) : Option Value :=
  tblLookup m (legalize_name name)

/-- Embeds OnnxOnnfSymbolMapping::AddMapping (lines 83-85): map::emplace
inserts the legalized key only when it is absent; when the key is already
bound the map is left unchanged and nothing is reported to the caller. -/
def AddMapping (m : SymTab) (name : List Char) (tensor : Value) : SymTab :=
  if (tblLookup m (legalize_name name)).isSome then m
  else (legalize_name name, tensor) :: m

/-- Embeds OnnxOnnfSymbolMapping::ContainKey (lines 87-89): membership of
the argument exactly as given; note that this operation does not legalize
its argument, unlike AddMapping and GetTensorByOnnxName. -/
def ContainKey (m : SymTab) (name : List Char) : Bool :=
  (tblLookup m name).isSome

/-- Embeds the operand-resolution loop of FrontendGenImpl::ImportNode
(lines 201-207): for each input name in order, if the legalized name is
bound in the symbol table the bound value is appended to the operand list,
and otherwise the name is silently skipped; the import never fails here. -/
def resolveNodeInputs (m : SymTab) : List (List Char) → List Value
  | [] => []
  | item :: rest =>
    if ContainKey m (legalize_name item) then
      match GetTensorByOnnxName m item with
      | some v => v :: resolveNodeInputs m rest
      | none => resolveNodeInputs m rest
    else resolveNodeInputs m rest

/-- The two operation variants the Gemm branch of ImportNode can build. -/
inductive GemmBuild where
  | fullGemm (i0 i1 i2 : Value)
  | gemm (inputs : List Value)
deriving DecidableEq

/-- Embeds the Gemm dispatch of FrontendGenImpl::ImportNode (lines
226-240): a resolved operand list of size three builds ONNXFullGemmOp from
inputs[0], inputs[1] and inputs[2]; any other size falls through to the
variadic ONNXGemmOp applied to the whole operand list. -/
def importGemm (inputs : List Value) : GemmBuild :=
  if inputs.length = 3 then
    GemmBuild.fullGemm (inputs.getD 0 0) (inputs.getD 1 0) (inputs.getD 2 0)
  else GemmBuild.gemm inputs

/-- Shape, stride and owning fields of struct OMTensor (OMTensor.inc lines
92-105); the rank field always equals the length of the shape and stride
arrays in every creation path, so rank is modelled as the list length. -/
structure OMTensorDesc where
  shape : List Int
  stride : List Int
  owning : Bool
deriving DecidableEq

/-- Embeds the stride-filling loop of omTensorCreate (OMTensor.inc lines
131-137): stride[rank-1] = 1 and stride[i] = stride[i+1] * shape[i+1],
filled from the last dimension towards the first. -/
def omTensorCreateStrides : List Int → List Int
  | [] => []
  | [_] => [1]
  | _ :: d1 :: rest =>
    let s := omTensorCreateStrides (d1 :: rest)
    (s.headI * d1) :: s

/-- Embeds omTensorCreate (lines 109-139) restricted to the fields the
claims are about: the shape is copied, dense row-major strides are
computed, and the fresh descriptor does not own its buffer. -/
def omTensorCreate (shape : List Int) : OMTensorDesc :=
  { shape := shape, stride := omTensorCreateStrides shape, owning := false }

/-- Embeds omTensorCreateWithOwnership (lines 142-150): omTensorCreate
followed by setting the owning flag. -/
def omTensorCreateWithOwnership (shape : List Int) (owning : Bool) : OMTensorDesc :=
  { omTensorCreate shape with owning := owning }

/-- Modelled from the spec: getNumOfElems is declared in
src/Runtime/OMTensorHelper.h, a file of this repository that is not among
the staged sources; the spec fixes numElements as the product of the shape
extents, so it is modelled as that product. -/
def getNumOfElems (shape : List Int) : Int := shape.prod

/-- Embeds omTensorGetNumElems (lines 269-281): for every dimension i the
assertion stride[i] == product of shape[i+1 .. rank-1] must hold; a failed
assert aborts rather than returning, which is modelled by none. When every
assertion holds the element count is returned. -/
def omTensorGetNumElems (t : OMTensorDesc) : Option Int :=
  if (List.range t.shape.length).all
      (fun i => t.stride.getD i 0 == (t.shape.drop (i + 1)).prod)
  then some (getNumOfElems t.shape)
  else none

/-- Which of the resources of one descriptor a destruction call releases. -/
structure ReleaseActions where
  dataFreed : Bool
  shapeFreed : Bool
  strideFreed : Bool
  structFreed : Bool
deriving DecidableEq

/-- Embeds omTensorDestroy (lines 194-201): the data buffer is freed iff
the owning flag is set, and then the struct itself is freed with free.
Because free (unlike delete) does not run the C++ destructor, the shape
and stride arrays that omTensorCreate allocated are not released by this
call. -/
def omTensorDestroy (t : OMTensorDesc) : ReleaseActions :=
  { dataFreed := t.owning, shapeFreed := false, strideFreed := false, structFreed := true }

/-- Embeds the C++ destructor of OMTensor (lines 73-78), which does free
the shape and stride arrays; it runs only under delete or stack
destruction, never under omTensorDestroy, whose tensors come from malloc. -/
def omTensorDtor (t : OMTensorDesc) : ReleaseActions :=
  { dataFreed := t.owning, shapeFreed := true, strideFreed := true, structFreed := false }

/-- Shape and linear element data of a tensor as the comparison reads
them; the numeric element type of the template instantiations is modelled
by the rationals. -/
structure CloseOMT where
  shape : List Int
  data : List ℚ

/-- Verdict of the comparison plus the shape-mismatch report it writes out
before touching any element data. -/
structure CloseResult where
  verdict : Bool
  shapeMismatch : Option (List Int × List Int)
deriving DecidableEq

/-- Embeds omTensorAreTwoOmtsClose (OMTensor.inc lines 402-455). Shapes
are compared first and a mismatch returns false at once, reporting both
shapes. Otherwise anum elements are read (anum is omTensorGetNumElems of
the first tensor, the shape product, since tensors reaching the comparison
carry the dense strides they were created with), absoluteDiff[i] is the
absolute value of a[i] - b[i], the absolute mask asks that every
absoluteDiff[i] be strictly below atol, relativeDiff[i] is
absoluteDiff[i] / a[i] (division by the signed a[i], no absolute value),
the relative mask asks that every relativeDiff[i] be strictly below rtol,
and the verdict is the conjunction of the two masks. The diagnostic loop
of the failure path only prints and never changes the returned value. -/
def omTensorAreTwoOmtsClose (a b : CloseOMT) (rtol atol : ℚ) : CloseResult :=
  if a.shape = b.shape then
    let anum := (getNumOfElems a.shape).toNat
    let aEl := a.data.take anum
    let bEl := b.data.take anum
    let absoluteDiff := (aEl.zipWith (fun x y => x - y) bEl).map (fun d => |d|)
    let atolSatisfied := absoluteDiff.all (fun d => decide (d < atol))
    let relativeDiff := absoluteDiff.zipWith (fun d x => d / x) aEl
    let rtolSatisfied := relativeDiff.all (fun r => decide (r < rtol))
    { verdict := atolSatisfied && rtolSatisfied, shapeMismatch := none }
  else { verdict := false, shapeMismatch := some (a.shape, b.shape) }

/-- Follows the words of the spec, as the refinement target to compare the
source against: tensors are close when the shapes agree and every element
pair satisfies abs (a[i] - b[i]) at most atol, or at most rtol times
abs (a[i]). -/
def specCloseRule (a b : CloseOMT) (rtol atol : ℚ) : Bool :=
  decide (a.shape = b.shape) &&
    (a.data.zip b.data).all
      (fun p => decide (|p.1 - p.2| ≤ atol) || decide (|p.1 - p.2| ≤ rtol * |p.1|))

/-- Follows the words of the spec, as the refinement target to compare the
source against: the bulk verdict as the OR of the all-elements absolute
mask and the all-elements relative mask. -/
def specOrOfMasks (a b : CloseOMT) (rtol atol : ℚ) : Bool :=
  decide (a.shape = b.shape) &&
    ((a.data.zip b.data).all (fun p => decide (|p.1 - p.2| ≤ atol)) ||
      (a.data.zip b.data).all (fun p => decide (|p.1 - p.2| ≤ rtol * |p.1|)))

/-! Helper lemmas about the name legalizer. -/

theorem mem_replaceAll {c : Char} {repl : List Char} {s : List Char} {x : Char}
    (hx : x ∈ replaceAll c repl s) : x ∈ repl ∨ x ∈ s := by
  induction s with
  | nil => simp [replaceAll] at hx
  | cons y ys ih =>
    simp only [replaceAll] at hx
    by_cases h : y = c
    · rw [if_pos h] at hx
      rcases List.mem_append.1 hx with h1 | h2
      · exact Or.inl h1
      · rcases ih h2 with h3 | h4
        · exact Or.inl h3
        · exact Or.inr (List.mem_cons_of_mem _ h4)
    · rw [if_neg h] at hx
      rcases List.mem_cons.1 hx with h1 | h2
      · exact Or.inr (h1 ▸ List.mem_cons_self _ _)
      · rcases ih h2 with h3 | h4
        · exact Or.inl h3
        · exact Or.inr (List.mem_cons_of_mem _ h4)

theorem not_mem_replaceAll_self {c : Char} {repl : List Char} (hc : c ∉ repl)
    (s : List Char) : c ∉ replaceAll c repl s := by
  induction s with
  | nil => simp [replaceAll]
  | cons y ys ih =>
    simp only [replaceAll]
    by_cases h : y = c
    · rw [if_pos h]
      intro hmem
      rcases List.mem_append.1 hmem with h1 | h2
      · exact hc h1
      · exact ih h2
    · rw [if_neg h]
      intro hmem
      rcases List.mem_cons.1 hmem with h1 | h2
      · exact h h1.symm
      · exact ih h2

theorem replaceAll_of_not_mem {c : Char} (repl : List Char) {s : List Char}
    (h : c ∉ s) : replaceAll c repl s = s := by
  induction s with
  | nil => rfl
  | cons y ys ih =>
    have hy : ¬(y = c) := fun e => h (e ▸ List.mem_cons_self y ys)
    simp only [replaceAll, if_neg hy]
    rw [ih (fun hm => h (List.mem_cons_of_mem _ hm))]

theorem mem_prependN {n : List Char} {x : Char} (hx : x ∈ prependN n) :
    x = 'n' ∨ x ∈ n := by
  cases n with
  | nil => exact Or.inr hx
  | cons c cs =>
    simp only [prependN] at hx
    by_cases hd : c.isDigit
    · rw [if_pos hd] at hx
      rcases List.mem_cons.1 hx with h1 | h2
      · exact Or.inl h1
      · exact Or.inr h2
    · rw [if_neg hd] at hx
      exact Or.inr hx

/-- Character facts about the body of legalize_name before the digit
check: no slash, dash or colon survives the three replacements. -/
theorem legalize_body_clean (s : List Char) :
    '/' ∉ replaceAll ':' colonRepl (replaceAll '-' ['_'] (replaceAll '/' ['_'] s)) ∧
    '-' ∉ replaceAll ':' colonRepl (replaceAll '-' ['_'] (replaceAll '/' ['_'] s)) ∧
    ':' ∉ replaceAll ':' colonRepl (replaceAll '-' ['_'] (replaceAll '/' ['_'] s)) := by
  refine ⟨?_, ?_, ?_⟩
  · intro hmem
    rcases mem_replaceAll hmem with h1 | h2
    · revert h1; decide
    · rcases mem_replaceAll h2 with h3 | h4
      · revert h3; decide
      · exact not_mem_replaceAll_self (by decide) s h4
  · intro hmem
    rcases mem_replaceAll hmem with h1 | h2
    · revert h1; decide
    · exact not_mem_replaceAll_self (by decide) _ h2
  · exact not_mem_replaceAll_self (by decide) _

/-- C7, part used for both idempotence and the character guarantees: the
output of legalize_name never holds a slash, dash or colon, and its head
is never a digit. -/
theorem legalize_name_clean (s : List Char) :
    ('/' ∉ legalize_name s ∧ '-' ∉ legalize_name s ∧ ':' ∉ legalize_name s) ∧
    (∀ c, (legalize_name s).head? = some c → c.isDigit = false) := by
  obtain ⟨h1, h2, h3⟩ := legalize_body_clean s
  constructor
  · refine ⟨?_, ?_, ?_⟩ <;> intro hmem <;> rcases mem_prependN hmem with he | hb
    · exact absurd he (by decide)
    · exact h1 hb
    · exact absurd he (by decide)
    · exact h2 hb
    · exact absurd he (by decide)
    · exact h3 hb
  · intro c hc
    unfold legalize_name at hc
    rcases hn : replaceAll ':' colonRepl
        (replaceAll '-' ['_'] (replaceAll '/' ['_'] s)) with _ | ⟨d, ds⟩ <;>
      rw [hn] at hc
    · exact absurd hc (by simp [prependN])
    · simp only [prependN] at hc
      by_cases hd : d.isDigit
      · rw [if_pos hd] at hc
        simp only [List.head?_cons, Option.some.injEq] at hc
        rw [← hc]
        decide
      · rw [if_neg hd] at hc
        simp only [List.head?_cons, Option.some.injEq] at hc
        rw [← hc]
        simpa using hd

/-- Names whose characters are already clean and whose head is no digit
are fixed points of legalize_name. -/
theorem legalize_name_fixed {r : List Char} (h1 : '/' ∉ r) (h2 : '-' ∉ r)
    (h3 : ':' ∉ r) (hh : ∀ c, r.head? = some c → c.isDigit = false) :
    legalize_name r = r := by
  unfold legalize_name
  rw [replaceAll_of_not_mem _ h1, replaceAll_of_not_mem _ h2,
    replaceAll_of_not_mem _ h3]
  cases r with
  | nil => rfl
  | cons c cs =>
    have hc := hh c rfl
    simp [prependN, hc]

/-- C7: for every input string s, legalize commutes with itself,
legalize (legalize s) = legalize s; the output holds no slash, dash or
colon, and never starts with a digit. -/
theorem legalize_name_idempotent_and_legal (s : List Char) :
    legalize_name (legalize_name s) = legalize_name s ∧
    ('/' ∉ legalize_name s ∧ '-' ∉ legalize_name s ∧ ':' ∉ legalize_name s) ∧
    (∀ c, (legalize_name s).head? = some c → c.isDigit = false) := by
  obtain ⟨⟨h1, h2, h3⟩, hhead⟩ := legalize_name_clean s
  exact ⟨legalize_name_fixed h1 h2 h3 hhead, ⟨h1, h2, h3⟩, hhead⟩

/-! Helper lemma about the association-list lookup. -/

theorem tblLookup_mem {m : SymTab} {k : List Char} {v : Value}
    (h : tblLookup m k = some v) : (k, v) ∈ m := by
  induction m with
  | nil => simp [tblLookup] at h
  | cons p rest ih =>
    obtain ⟨pk, pv⟩ := p
    simp only [tblLookup] at h
    by_cases hpk : pk = k
    · rw [if_pos hpk] at h
      cases h
      rw [hpk]
      exact List.mem_cons_self _ _
    · rw [if_neg hpk] at h
      exact List.mem_cons_of_mem _ (ih h)

/-- C2: duplicate binding is silently absorbed, not rejected. Binding the
name x twice leaves the table exactly as after the first binding, with no
error reported (AddMapping has no failure result at all), and lookup
still returns the first value, never the second. -/
theorem addMapping_duplicate_silently_keeps :
    AddMapping (AddMapping [] ['x'] 1) ['x'] 2 = AddMapping [] ['x'] 1 ∧
    GetTensorByOnnxName (AddMapping (AddMapping [] ['x'] 1) ['x'] 2) ['x'] = some 1 :=
  ⟨rfl, rfl⟩

/-- C4: on a descriptor that owns its buffer, omTensorDestroy frees the
data buffer and the struct but leaves the shape and stride arrays
unreleased, because free on the struct pointer never runs the C++
destructor; only the destructor itself (omTensorDtor) releases them. -/
theorem omTensorDestroy_keeps_shape_stride_arrays :
    omTensorDestroy (omTensorCreateWithOwnership [2, 3] true) =
      { dataFreed := true, shapeFreed := false, strideFreed := false,
        structFreed := true } ∧
    omTensorDtor (omTensorCreateWithOwnership [2, 3] true) =
      { dataFreed := true, shapeFreed := true, strideFreed := true,
        structFreed := false } :=
  ⟨rfl, rfl⟩

/-- C3: operand resolution never fails; it returns exactly the values of
those input names whose legalized form is bound, in the original relative
order, silently dropping every unbound name. filterMap keeps the order of
the surviving entries and maps each bound name to its looked-up value. -/
theorem importNode_drops_unresolved_operands (m : SymTab)
    (names : List (List Char)) :
    resolveNodeInputs m names =
      names.filterMap (fun item => GetTensorByOnnxName m item) := by
  induction names with
  | nil => rfl
  | cons item rest ih =>
    simp only [GetTensorByOnnxName] at ih ⊢
    simp only [resolveNodeInputs, List.filterMap_cons, GetTensorByOnnxName,
      ContainKey]
    cases h : tblLookup m (legalize_name item) with
    | none =>
      simp only [h, Option.isSome_none, Bool.false_eq_true, if_false]
      exact ih
    | some v =>
      simp only [h, Option.isSome_some, if_true]
      rw [ih]

/-- C8 counterexample: with a single resolved operand, the importer still
builds the variadic Gemm variant, refuting that the variadic fallback is
constructed exactly when the resolved operand list has two entries. -/
theorem importGemm_variadic_on_one_operand :
    importGemm [7] = GemmBuild.gemm [7] ∧ ¬([(7 : Value)].length = 2) := by
  exact ⟨rfl, by decide⟩

/-- C8, amended: the specialized three-operand variant is built exactly
when the resolved operand list has three entries, and the variadic
fallback is built exactly when it has any other number of entries. -/
theorem importGemm_arity_dispatch (inputs : List Value) :
    ((∃ x y z, importGemm inputs = GemmBuild.fullGemm x y z) ↔
      inputs.length = 3) ∧
    ((importGemm inputs = GemmBuild.gemm inputs) ↔ ¬inputs.length = 3) := by
  by_cases h : inputs.length = 3
  · constructor
    · simp only [importGemm, if_pos h, h, iff_true]
      exact ⟨_, _, _, rfl⟩
    · simp [importGemm, if_pos h, h]
  · constructor
    · simp only [importGemm, if_neg h, h, iff_false]
      rintro ⟨x, y, z, hxyz⟩
      cases hxyz
    · simp [importGemm, if_neg h, h]

/-- C9: when the shapes differ, the comparison returns false at once,
reports exactly the two shapes, and the outcome is the same for every
choice of element data, so no element is ever consulted. -/
theorem shape_mismatch_immediate_failure (s1 s2 : List Int)
    (d1 d2 : List ℚ) (rtol atol : ℚ) (h : ¬s1 = s2) :
    omTensorAreTwoOmtsClose ⟨s1, d1⟩ ⟨s2, d2⟩ rtol atol =
      { verdict := false, shapeMismatch := some (s1, s2) } := by
  unfold omTensorAreTwoOmtsClose
  rw [if_neg h]

/-- C9 witness: shapes of one tensor of two elements and one of three,
with arbitrary data, are reported unequal with both shapes. -/
theorem shape_mismatch_immediate_failure_witness :
    omTensorAreTwoOmtsClose ⟨[2], [0, 0]⟩ ⟨[3], [0, 0, 0]⟩ 0 0 =
      { verdict := false, shapeMismatch := some ([2], [3]) } :=
  shape_mismatch_immediate_failure [2] [3] [0, 0] [0, 0, 0] 0 0 (by decide)

/-- C10: ContainKey does not legalize while AddMapping and
GetTensorByOnnxName do. For a raw name s that legalization changes, bound
into a table whose keys are all legalized (every table the importer builds
is such, since all insertions go through AddMapping), membership of the
raw s is reported false, membership of legalize s is true, and lookup of
the raw s still returns the bound value. -/
theorem containKey_not_legalizing_contrast (m : SymTab) (s : List Char)
    (v : Value) (hkeys : ∀ p ∈ m, legalize_name p.1 = p.1)
    (hfree : tblLookup m (legalize_name s) = none)
    (hs : ¬legalize_name s = s) :
    ContainKey (AddMapping m s v) s = false ∧
    ContainKey (AddMapping m s v) (legalize_name s) = true ∧
    GetTensorByOnnxName (AddMapping m s v) s = some v := by
  have hadd : AddMapping m s v = (legalize_name s, v) :: m := by
    rw [AddMapping, hfree]
    rfl
  have hnos : tblLookup m s = none := by
    cases hcase : tblLookup m s with
    | none => rfl
    | some w => exact absurd (hkeys (s, w) (tblLookup_mem hcase)) hs
  refine ⟨?_, ?_, ?_⟩
  · rw [hadd]
    simp [ContainKey, tblLookup, hs, hnos]
  · rw [hadd]
    simp [ContainKey, tblLookup]
  · rw [GetTensorByOnnxName, hadd]
    simp [tblLookup]

/-- C10 witness: the raw name a slash b is changed by legalization; after
binding it, the raw name is not a key, the legalized name is, and lookup
of the raw name returns the bound value. -/
theorem containKey_not_legalizing_contrast_witness :
    ContainKey (AddMapping [] ['a', '/', 'b'] 5) ['a', '/', 'b'] = false ∧
    ContainKey (AddMapping [] ['a', '/', 'b'] 5)
      (legalize_name ['a', '/', 'b']) = true ∧
    GetTensorByOnnxName (AddMapping [] ['a', '/', 'b'] 5) ['a', '/', 'b'] =
      some 5 :=
  containKey_not_legalizing_contrast [] ['a', '/', 'b'] 5 (by simp) rfl
    (by decide)

/-- Closed form of the stride loop: the stride at position i is the
product of the extents that follow position i. -/
theorem omTensorCreateStrides_eq (shape : List Int) :
    omTensorCreateStrides shape =
      (List.range shape.length).map (fun i => (shape.drop (i + 1)).prod) := by
  induction shape with
  | nil => rfl
  | cons x xs ih =>
    cases xs with
    | nil => simp [omTensorCreateStrides]
    | cons y ys =>
      simp only [omTensorCreateStrides]
      rw [ih]
      have hhead : ((List.range (y :: ys).length).map
          (fun i => ((y :: ys).drop (i + 1)).prod)).headI = ys.prod := by
        simp [List.range_succ_eq_map]
      rw [hhead]
      have hlen : (x :: y :: ys).length = (y :: ys).length + 1 := rfl
      rw [hlen, List.range_succ_eq_map, List.map_cons, List.map_map]
      simp [Function.comp, List.drop_succ_cons, mul_comm]

/-- Index form of the computed strides. -/
theorem omTensorCreateStrides_getD (shape : List Int) {i : Nat}
    (hi : i < shape.length) :
    (omTensorCreateStrides shape).getD i 0 = (shape.drop (i + 1)).prod := by
  rw [omTensorCreateStrides_eq]
  rw [List.getD_eq_getElem _ _ (by simpa using hi)]
  simp

/-- C5: a descriptor freshly created from a buffer carries dense row-major
strides: there are as many strides as extents, the last stride is one, and
every other stride is the next stride times the next extent. -/
theorem omTensorCreate_dense_strides (shape : List Int)
    (_hpos : ∀ x ∈ shape, 0 < x) (hne : ¬shape = []) :
    (omTensorCreate shape).stride.length = shape.length ∧
    (omTensorCreate shape).stride.getD (shape.length - 1) 0 = 1 ∧
    ∀ i, i + 1 < shape.length →
      (omTensorCreate shape).stride.getD i 0 =
        (omTensorCreate shape).stride.getD (i + 1) 0 *
          shape.getD (i + 1) 0 := by
  have hlen0 : 0 < shape.length := List.length_pos.mpr hne
  have hget : ∀ i, i < shape.length →
      (omTensorCreate shape).stride.getD i 0 = (shape.drop (i + 1)).prod :=
    fun i hi => omTensorCreateStrides_getD shape hi
  refine ⟨?_, ?_, ?_⟩
  · simp [omTensorCreate, omTensorCreateStrides_eq]
  · rw [hget (shape.length - 1) (by omega)]
    have h1 : shape.length - 1 + 1 = shape.length := by omega
    rw [h1, List.drop_length, List.prod_nil]
  · intro i hi
    rw [hget i (by omega), hget (i + 1) hi]
    have hdrop : shape.drop (i + 1) =
        shape.getD (i + 1) 0 :: shape.drop (i + 2) := by
      rw [List.getD_eq_getElem _ _ hi]
      exact List.drop_eq_getElem_cons hi
    rw [hdrop, List.prod_cons, mul_comm]

/-- C5 witness: the shape with extents two, three and four has strides
twelve, four and one, which satisfy the dense-stride law. -/
theorem omTensorCreate_dense_strides_witness :
    (omTensorCreate [2, 3, 4]).stride.length = ([2, 3, 4] : List Int).length ∧
    (omTensorCreate [2, 3, 4]).stride.getD
      (([2, 3, 4] : List Int).length - 1) 0 = 1 ∧
    ∀ i, i + 1 < ([2, 3, 4] : List Int).length →
      (omTensorCreate [2, 3, 4]).stride.getD i 0 =
        (omTensorCreate [2, 3, 4]).stride.getD (i + 1) 0 *
          ([2, 3, 4] : List Int).getD (i + 1) 0 :=
  omTensorCreate_dense_strides [2, 3, 4] (by decide) (by decide)

/-- The contiguity check of omTensorGetNumElems passes exactly on the
dense strides that omTensorCreate computes, for a stride array of the
right length. -/
theorem omTensorGetNumElems_check (t : OMTensorDesc)
    (hlen : t.stride.length = t.shape.length) :
    ((List.range t.shape.length).all
        (fun i => t.stride.getD i 0 == (t.shape.drop (i + 1)).prod) = true) ↔
      t.stride = omTensorCreateStrides t.shape := by
  have hclen : (omTensorCreateStrides t.shape).length = t.shape.length := by
    rw [omTensorCreateStrides_eq]
    simp
  rw [List.all_eq_true]
  constructor
  · intro hall
    apply List.ext_getElem (by rw [hlen, hclen])
    intro i h1 h2
    have hi : i < t.shape.length := by rwa [hlen] at h1
    have hbeq := hall i (List.mem_range.mpr hi)
    simp only [beq_iff_eq] at hbeq
    rw [← List.getD_eq_getElem t.stride 0 h1,
      ← List.getD_eq_getElem (omTensorCreateStrides t.shape) 0 h2, hbeq,
      omTensorCreateStrides_getD _ hi]
  · intro heq i hmem
    have hi : i < t.shape.length := List.mem_range.mp hmem
    simp only [heq, omTensorCreateStrides_getD _ hi, beq_self_eq_true]

/-- C6: on a descriptor whose strides are exactly the dense row-major
strides of its shape, omTensorGetNumElems returns the product of the
extents; on any descriptor whose strides deviate from those, the
contiguity assertion fails and no value is returned. -/
theorem omTensorGetNumElems_dense_iff (t : OMTensorDesc)
    (hlen : t.stride.length = t.shape.length) :
    (t.stride = omTensorCreateStrides t.shape →
      omTensorGetNumElems t = some (getNumOfElems t.shape)) ∧
    (¬t.stride = omTensorCreateStrides t.shape →
      omTensorGetNumElems t = none) := by
  constructor
  · intro heq
    rw [omTensorGetNumElems,
      if_pos ((omTensorGetNumElems_check t hlen).mpr heq)]
  · intro hne
    rw [omTensorGetNumElems, if_neg ?_]
    intro hall
    exact hne ((omTensorGetNumElems_check t hlen).mp hall)

/-- C6 witness: a two-by-three descriptor with the dense strides three
and one has six elements. -/
theorem omTensorGetNumElems_dense_iff_witness :
    omTensorGetNumElems ⟨[2, 3], [3, 1], false⟩ = some 6 :=
  (omTensorGetNumElems_dense_iff ⟨[2, 3], [3, 1], false⟩ rfl).1 rfl

/-- Index form of the absolute-tolerance mask of the comparison. -/
theorem closeAux_atol (xs : List ℚ) (atol : ℚ) :
    ∀ ys : List ℚ, ys.length = xs.length →
      ((((xs.zipWith (fun x y => x - y) ys).map (fun d => |d|)).all
          (fun d => decide (d < atol)) = true) ↔
        ∀ i, i < xs.length → |xs.getD i 0 - ys.getD i 0| < atol) := by
  induction xs with
  | nil =>
    intro ys hlen
    have hys : ys = [] := List.length_eq_zero.mp hlen
    subst hys
    simp
  | cons x xs ih =>
    intro ys hlen
    cases ys with
    | nil => simp at hlen
    | cons y ys =>
      have hlen2 : ys.length = xs.length := by simpa using hlen
      simp only [List.zipWith_cons_cons, List.map_cons, List.all_cons,
        Bool.and_eq_true, decide_eq_true_eq, ih ys hlen2]
      constructor
      · rintro ⟨h0, hrest⟩ i hi
        cases i with
        | zero => simpa using h0
        | succ j =>
          have hj : j < xs.length := Nat.lt_of_succ_lt_succ hi
          simpa using hrest j hj
      · intro hall
        refine ⟨by simpa using hall 0 (Nat.succ_pos _), fun j hj => ?_⟩
        simpa using hall (j + 1) (Nat.succ_lt_succ hj)

/-- Index form of the relative-tolerance mask of the comparison. -/
theorem closeAux_rtol (xs : List ℚ) (rtol : ℚ) :
    ∀ ys : List ℚ, ys.length = xs.length →
      (((((xs.zipWith (fun x y => x - y) ys).map (fun d => |d|)).zipWith
          (fun d x => d / x) xs).all (fun r => decide (r < rtol)) = true) ↔
        ∀ i, i < xs.length →
          |xs.getD i 0 - ys.getD i 0| / xs.getD i 0 < rtol) := by
  induction xs with
  | nil =>
    intro ys hlen
    have hys : ys = [] := List.length_eq_zero.mp hlen
    subst hys
    simp
  | cons x xs ih =>
    intro ys hlen
    cases ys with
    | nil => simp at hlen
    | cons y ys =>
      have hlen2 : ys.length = xs.length := by simpa using hlen
      simp only [List.zipWith_cons_cons, List.map_cons, List.all_cons,
        Bool.and_eq_true, decide_eq_true_eq, ih ys hlen2]
      constructor
      · rintro ⟨h0, hrest⟩ i hi
        cases i with
        | zero => simpa using h0
        | succ j =>
          have hj : j < xs.length := Nat.lt_of_succ_lt_succ hi
          simpa using hrest j hj
      · intro hall
        refine ⟨by simpa using hall 0 (Nat.succ_pos _), fun j hj => ?_⟩
        simpa using hall (j + 1) (Nat.succ_lt_succ hj)

/-- C1 counterexample: with element one against element three, rtol one
and atol five, the per-element rule of the spec and the OR of the two
masks both accept, yet the source returns false, because it takes the
AND of the masks and the relative mask fails. -/
theorem closeVerdict_or_rule_counterexample :
    specCloseRule ⟨[1], [1]⟩ ⟨[1], [3]⟩ 1 5 = true ∧
    specOrOfMasks ⟨[1], [1]⟩ ⟨[1], [3]⟩ 1 5 = true ∧
    (omTensorAreTwoOmtsClose ⟨[1], [1]⟩ ⟨[1], [3]⟩ 1 5).verdict = false := by
  refine ⟨?_, ?_, ?_⟩ <;>
    norm_num [specCloseRule, specOrOfMasks, omTensorAreTwoOmtsClose,
      getNumOfElems]

/-- C1, amended: when the shapes match and the buffers hold exactly the
element count, the bulk verdict is the AND of the two all-elements masks
with strict bounds: every absolute difference is strictly below atol, and
every absolute difference divided by the signed first-tensor element is
strictly below rtol. -/
theorem closeVerdict_is_and_of_strict_masks (a b : CloseOMT) (rtol atol : ℚ)
    (hsh : a.shape = b.shape)
    (hla : a.data.length = (getNumOfElems a.shape).toNat)
    (hlb : b.data.length = a.data.length) :
    ((omTensorAreTwoOmtsClose a b rtol atol).verdict = true) ↔
      ((∀ i, i < a.data.length →
          |a.data.getD i 0 - b.data.getD i 0| < atol) ∧
        (∀ i, i < a.data.length →
          |a.data.getD i 0 - b.data.getD i 0| / a.data.getD i 0 < rtol)) := by
  have hta : a.data.take (getNumOfElems a.shape).toNat = a.data := by
    rw [← hla]
    exact List.take_length a.data
  have htb : b.data.take (getNumOfElems a.shape).toNat = b.data := by
    rw [← hla, ← hlb]
    exact List.take_length b.data
  have hval : (omTensorAreTwoOmtsClose a b rtol atol).verdict =
      ((((a.data.zipWith (fun x y => x - y) b.data).map (fun d => |d|)).all
          (fun d => decide (d < atol))) &&
        ((((a.data.zipWith (fun x y => x - y) b.data).map
            (fun d => |d|)).zipWith (fun d x => d / x) a.data).all
          (fun r => decide (r < rtol)))) := by
    unfold omTensorAreTwoOmtsClose
    rw [if_pos hsh]
    simp only [hta, htb]
  rw [hval, Bool.and_eq_true, closeAux_atol a.data atol b.data hlb,
    closeAux_rtol a.data rtol b.data hlb]

/-- C1 witness for the amended statement: equal singleton tensors with
both tolerances one satisfy both sides of the equivalence. -/
theorem closeVerdict_is_and_of_strict_masks_witness :
    ((omTensorAreTwoOmtsClose ⟨[1], [1]⟩ ⟨[1], [1]⟩ 1 1).verdict = true) ↔
      ((∀ i, i < ([(1 : ℚ)]).length →
          |([(1 : ℚ)]).getD i 0 - ([(1 : ℚ)]).getD i 0| < 1) ∧
        (∀ i, i < ([(1 : ℚ)]).length →
          |([(1 : ℚ)]).getD i 0 - ([(1 : ℚ)]).getD i 0| /
            ([(1 : ℚ)]).getD i 0 < 1)) :=
  closeVerdict_is_and_of_strict_masks ⟨[1], [1]⟩ ⟨[1], [1]⟩ 1 1 rfl rfl rfl
